import Mathlib

/-!
Shallow embedding of the move-generation kernel of the abra chess engine
(src/src/game_piece_moves.cpp), together with theorems settling the claims
about it.

Conventions of the embedding:
* a C++ `bitboard` (uint64) is a `Nat`; wherever C++ 64-bit arithmetic can
  overflow or truncate (the shifts in `get_pawn_attacks`, the complement in
  `vacant`) we take the result `% 2 ^ 64` explicitly;
* a C++ `square` (a signed integer index) is an `Int`; `test_bit` / `set_bit`
  on an index outside [0, 64) is undefined behaviour in the C++ (the spec
  declares such accesses cannot occur for well-formed inputs), and the
  embedding totalises them as no-ops — the claims proved below only depend
  on in-range behaviour;
* each C++ `for (s = 0; s < 64; ...) if (test_bit(b, s)) ...` scan is the
  fold `scanUnion`, with the loop body as an explicit per-square function.
-/

namespace abra

/-- The two piece colors (game.h). -/
inductive color
  | white
  | black
deriving DecidableEq

/-- The two per-color occupancy bitboards (the `board` member read by the
generators). -/
structure boardT where
  white : Nat
  black : Nat
deriving DecidableEq

/-- The game state visible to the generators: board occupancy and the
en-passant target square. -/
structure game where
  board : boardT
  en_passant : Int
deriving DecidableEq

/-- Modelled from the spec: direction constant from movement.h (not under
src/). Row-major layout, row 0 at the top; white advances toward decreasing
row index, i.e. "up", so `up` is -8. -/
def up : Int := -8

/-- Modelled from the spec: direction constant from movement.h (not under
src/); black advances toward increasing row index. -/
def down : Int := 8

/-- Modelled from the spec: direction constant from movement.h (not under
src/); `left` decreases the column (the edge test in `add_capture` pairs
`left` with column 0). -/
def left : Int := -1

/-- Modelled from the spec: direction constant from movement.h (not under
src/); `right` increases the column. -/
def right : Int := 1

/-- Modelled from the spec: pawn forward direction per color (movement.h,
not under src/): white moves up (toward lower indices), black down.  This is
also forced by `get_pawn_moves` itself: start row 6 for white with a double
push two rows further requires white's forward step to be -8. -/
def get_pawn_direction (c : color) : Int :=
  match c with
  | color.white => up
  | color.black => down

/-- Modelled from the spec: `row(s) = s / 8` (movement.h, not under src/). -/
def get_row (s : Nat) : Nat := s / 8

/-- Modelled from the spec: `col(s) = s % 8` (movement.h, not under src/). -/
def get_col (s : Nat) : Nat := s % 8

/-- Modelled from the spec: `test_bit(b, s)` returns whether bit `s` of the
64-bit mask `b` is set (movement.h, not under src/).  Out-of-range indices
are undefined behaviour in C++ and read as `false` here. -/
def test_bit (b : Nat) (s : Int) : Bool :=
  if 0 ≤ s ∧ s < 64 then b.testBit s.toNat else false

/-- Modelled from the spec: `set_bit(m, s)` sets bit `s` of the 64-bit mask
`m` (movement.h, not under src/).  Out-of-range indices are undefined
behaviour in C++ and are no-ops here. -/
def set_bit (m : Nat) (s : Int) : Nat :=
  if 0 ≤ s ∧ s < 64 then m ||| 2 ^ s.toNat else m

/-- `is_valid_dimension` from game_piece_moves.cpp: a row or column candidate
is valid iff it lies in [0, 8). -/
def is_valid_dimension (i : Int) : Bool := 0 ≤ i && i < 8

/-- `get_offset_components` from game_piece_moves.cpp: decode a raw square
delta into (row delta, column delta) against the central square 36. -/
def get_offset_components (off : Int) : Int × Int :=
  ((36 + off) / 8 - 36 / 8, (36 + off) % 8 - 36 % 8)

/-- `make_jump_table` from game_piece_moves.cpp, viewed as a function of the
source square: the bitboard of destinations one offset-step away from `s`,
off-board steps discarded. -/
def make_jump_table (offsets : List Int) (s : Nat) : Nat :=
  offsets.foldl
    (fun moves x =>
      let d := get_offset_components x
      let i : Int := (get_row s : Int) + d.1
      let j : Int := (get_col s : Int) + d.2
      if is_valid_dimension i && is_valid_dimension j then
        set_bit moves (8 * i + j)
      else moves)
    0

/-- The `for (square s = 0; s < 64; s++) if (test_bit(b, s)) moves |= f(s)`
scan pattern shared by every generator loop in game_piece_moves.cpp. -/
def scanUnion (b : Nat) (f : Nat → Nat) : Nat :=
  (List.range 64).foldl (fun moves s => if b.testBit s then moves ||| f s else moves) 0

/-- `bitboard{board.black | board.white}`: all occupied squares. -/
def occupied (g : game) : Nat := (g.board.black ||| g.board.white) % 2 ^ 64

/-- `~bitboard{board.black | board.white}`: the 64-bit complement of the
occupancy, as in `get_pawn_moves`. -/
def vacant (g : game) : Nat := (2 ^ 64 - 1) ^^^ occupied g

/-- The pawn starting row per color, as computed in `get_pawn_moves`. -/
def start_row (c : color) : Nat :=
  match c with
  | color.white => 6
  | color.black => 1

/-- The `add_capture` lambda of `get_pawn_moves`: the contribution of the
diagonal capture of the pawn on `s` along horizontal direction `dir`
(left or right), as a bitboard.  Skipped at the matching edge column; the
destination is marked if it is occupied by either color or equals the
en-passant target. -/
def add_capture (vac : Nat) (ep : Int) (s : Nat) (pawn_dir dir : Int) : Nat :=
  if get_col s = (if dir = left then 0 else 7) then 0
  else
    let sq : Int := (s : Int) + pawn_dir + dir
    if test_bit vac sq = false ∨ sq = ep then set_bit 0 sq else 0

/-- The pawn-push portion of the `get_pawn_moves` loop body for one source
square `s`: the single push at `t = s + pawn_dir` gated on vacancy, and the
double push at `t + pawn_dir` gated on the starting row and on both squares
being vacant (only reachable when the single push succeeded). -/
def pawn_push_part (vac : Nat) (c : color) (s : Nat) : Nat :=
  let pawn_dir := get_pawn_direction c
  let t : Int := (s : Int) + pawn_dir
  if test_bit vac t then
    let m := set_bit 0 t
    if get_row s = start_row c ∧ test_bit vac (t + pawn_dir) then
      set_bit m (t + pawn_dir)
    else m
  else 0

/-- The body of the `get_pawn_moves` loop for one source square `s`: the
single/double push contribution plus both capture contributions. -/
def pawn_square_moves (vac : Nat) (ep : Int) (c : color) (s : Nat) : Nat :=
  pawn_push_part vac c s |||
    add_capture vac ep s (get_pawn_direction c) left |||
    add_capture vac ep s (get_pawn_direction c) right

/-- `game::get_pawn_moves` from game_piece_moves.cpp. -/
def game.get_pawn_moves (g : game) (b : Nat) (c : color) : Nat :=
  scanUnion b (pawn_square_moves (vacant g) g.en_passant c)

/-- The offset set of the pawn-attack jump table. -/
def pawn_attack_offsets : List Int := [left, right]

/-- `game::get_pawn_attacks` from game_piece_moves.cpp: shift the source mask
by one rank (`b <<= 8` for white, `b >>= 8` for black, in 64 bits), then
union the pawn-attack table entries of the set bits of the shifted mask. -/
def game.get_pawn_attacks (g : game) (b : Nat) (c : color) : Nat :=
  let b' :=
    match c with
    | color.white => ((b % 2 ^ 64) <<< 8) % 2 ^ 64
    | color.black => (b % 2 ^ 64) >>> 8
  scanUnion b' (make_jump_table pawn_attack_offsets)

/-- The knight offset set from `get_knight_moves`. -/
def knight_offsets : List Int :=
  [2 * up + left, 2 * up + right, 2 * down + left, 2 * down + right,
   up + 2 * left, down + 2 * left, up + 2 * right, down + 2 * right]

/-- `game::get_knight_moves` from game_piece_moves.cpp. -/
def game.get_knight_moves (g : game) (b : Nat) : Nat :=
  scanUnion b (make_jump_table knight_offsets)

/-- The king offset set from `get_king_moves`. -/
def king_offsets : List Int :=
  [up, down, left, right, up + left, up + right, down + left, down + right]

/-- `game::get_king_moves` from game_piece_moves.cpp. -/
def game.get_king_moves (g : game) (b : Nat) : Nat :=
  scanUnion b (make_jump_table king_offsets)

/-- The `while (is_valid_dimension(i) && is_valid_dimension(j))` ray walk of
the sliding generators, starting at candidate coordinates `(i, j)` and
stepping by `(dr, dc)`: mark each valid square, stop after the first
occupied square.  The fuel argument bounds the iteration count; the C++
loop performs at most 7 marking iterations (each step moves a coordinate by
one inside [0, 8)), so fuel 8 reproduces it exactly. -/
def walk (occ : Nat) (dr dc : Int) : Nat → Int → Int → Nat
  | 0, _, _ => 0
  | Nat.succ k, i, j =>
    if is_valid_dimension i && is_valid_dimension j then
      set_bit 0 (8 * i + j) |||
        (if test_bit occ (8 * i + j) then 0 else walk occ dr dc k (i + dr) (j + dc))
    else 0

/-- The bishop direction set of `get_bishop_moves`. -/
def bishop_dirs : List (Int × Int) := [(1, 1), (1, -1), (-1, 1), (-1, -1)]

/-- The rook direction set of `get_rook_moves`. -/
def rook_dirs : List (Int × Int) := [(1, 0), (-1, 0), (0, 1), (0, -1)]

/-- The body of a sliding-generator loop for one source square: union of the
four directional ray walks from `s`. -/
def slide_square (occ : Nat) (dirs : List (Int × Int)) (s : Nat) : Nat :=
  dirs.foldl
    (fun moves d =>
      moves ||| walk occ d.1 d.2 8 ((get_row s : Int) + d.1) ((get_col s : Int) + d.2))
    0

/-- `game::get_bishop_moves` from game_piece_moves.cpp. -/
def game.get_bishop_moves (g : game) (b : Nat) : Nat :=
  scanUnion b (slide_square (occupied g) bishop_dirs)

/-- `game::get_rook_moves` from game_piece_moves.cpp. -/
def game.get_rook_moves (g : game) (b : Nat) : Nat :=
  scanUnion b (slide_square (occupied g) rook_dirs)

/-- `game::get_queen_moves` from game_piece_moves.cpp. -/
def game.get_queen_moves (g : game) (b : Nat) : Nat :=
  g.get_bishop_moves b ||| g.get_rook_moves b

/-! ### Generic lemmas about the bit primitives and the scan pattern -/

/-- Reading a bit of a union reads the union of the bits. -/
theorem test_bit_lor (a b : Nat) (q : Int) :
    test_bit (a ||| b) q = (test_bit a q || test_bit b q) := by
  unfold test_bit
  by_cases h : 0 ≤ q ∧ q < 64
  · simp [h, Nat.testBit_or]
  · simp [h]

/-- Reading a bit of the empty bitboard. -/
theorem test_bit_zero_mask (q : Int) : test_bit 0 q = false := by
  unfold test_bit
  by_cases h : 0 ≤ q ∧ q < 64 <;> simp [h]

/-- Characterisation of reading a bit after `set_bit`. -/
theorem test_bit_set_bit (m : Nat) (x q : Int) :
    test_bit (set_bit m x) q
      = (test_bit m q || (decide (x = q) && decide (0 ≤ x ∧ x < 64))) := by
  unfold test_bit set_bit
  by_cases hx : 0 ≤ x ∧ x < 64
  · by_cases hq : 0 ≤ q ∧ q < 64
    · simp only [hx, hq, if_true, Nat.testBit_or, decide_eq_true_eq]
      by_cases hxq : x = q
      · subst hxq
        simp [Nat.testBit_two_pow]
      · have : x.toNat ≠ q.toNat := by omega
        simp [Nat.testBit_two_pow, hxq, this]
    · have hxq : ¬ x = q := by omega
      simp [hx, hq, hxq]
  · simp [hx]

/-- Unfolding one scan step: `testBit` of the generator fold. -/
theorem scan_fold_testBit (b : Nat) (f : Nat → Nat) (q : Nat) :
    ∀ (l : List Nat) (acc : Nat),
      (l.foldl (fun m s => if b.testBit s then m ||| f s else m) acc).testBit q
        = (acc.testBit q || l.any (fun s => b.testBit s && (f s).testBit q))
  | [], acc => by simp
  | s :: l, acc => by
    simp only [List.foldl_cons, List.any_cons]
    rw [scan_fold_testBit b f q l]
    by_cases h : b.testBit s
    · simp [h, Nat.testBit_or, Bool.or_assoc]
    · simp [h]

/-- A destination bit is set by a generator scan iff some set source bit
below 64 contributes it. -/
theorem scanUnion_testBit (b : Nat) (f : Nat → Nat) (q : Nat) :
    (scanUnion b f).testBit q = true ↔
      ∃ s, s < 64 ∧ b.testBit s = true ∧ (f s).testBit q = true := by
  unfold scanUnion
  rw [scan_fold_testBit]
  simp [List.mem_range, Bool.and_eq_true]

/-- A generator scan over a single-square source mask is the per-square
contribution of that square. -/
theorem scanUnion_two_pow (f : Nat → Nat) (s : Nat) (hs : s < 64) :
    scanUnion (2 ^ s) f = f s := by
  apply Nat.eq_of_testBit_eq
  intro q
  rw [Bool.eq_iff_iff, scanUnion_testBit]
  constructor
  · rintro ⟨i, _, hbit, hq⟩
    have : s = i := by
      rw [Nat.testBit_two_pow] at hbit
      exact of_decide_eq_true hbit
    exact this ▸ hq
  · intro h
    exact ⟨s, hs, by simp [Nat.testBit_two_pow], h⟩

/-- A generator scan is a union homomorphism in the source mask. -/
theorem scanUnion_lor (a b : Nat) (f : Nat → Nat) :
    scanUnion (a ||| b) f = scanUnion a f ||| scanUnion b f := by
  apply Nat.eq_of_testBit_eq
  intro q
  rw [Bool.eq_iff_iff, Nat.testBit_or, Bool.or_eq_true,
    scanUnion_testBit, scanUnion_testBit, scanUnion_testBit]
  constructor
  · rintro ⟨s, h1, h2, h3⟩
    rw [Nat.testBit_or, Bool.or_eq_true] at h2
    rcases h2 with h2 | h2
    · exact Or.inl ⟨s, h1, h2, h3⟩
    · exact Or.inr ⟨s, h1, h2, h3⟩
  · rintro (⟨s, h1, h2, h3⟩ | ⟨s, h1, h2, h3⟩) <;>
      exact ⟨s, h1, by simp [Nat.testBit_or, h2], h3⟩

/-- A generator scan over the empty source mask is empty. -/
theorem scanUnion_zero_mask (f : Nat → Nat) : scanUnion 0 f = 0 := by
  apply Nat.eq_of_testBit_eq
  intro q
  rw [Bool.eq_iff_iff, scanUnion_testBit]
  simp

/-- A concrete empty game state (no occupants, en-passant sentinel -1), used
to instantiate theorems at concrete inputs. -/
def empty_game : game := ⟨⟨0, 0⟩, -1⟩

/-- 64-bit left shift by 8 distributes over union of masks. -/
theorem shl8_mask_lor (a b : Nat) :
    (((a ||| b) % 2 ^ 64) <<< 8) % 2 ^ 64
      = ((a % 2 ^ 64) <<< 8) % 2 ^ 64 ||| ((b % 2 ^ 64) <<< 8) % 2 ^ 64 := by
  apply Nat.eq_of_testBit_eq
  intro q
  rw [Bool.eq_iff_iff]
  simp only [Nat.testBit_mod_two_pow, Nat.testBit_shiftLeft, Nat.testBit_or,
    Bool.and_eq_true, Bool.or_eq_true, decide_eq_true_eq]
  tauto

/-- Right shift by 8 distributes over union of masks. -/
theorem shr8_mask_lor (a b : Nat) :
    ((a ||| b) % 2 ^ 64) >>> 8 = (a % 2 ^ 64) >>> 8 ||| (b % 2 ^ 64) >>> 8 := by
  apply Nat.eq_of_testBit_eq
  intro q
  rw [Bool.eq_iff_iff]
  simp only [Nat.testBit_mod_two_pow, Nat.testBit_shiftRight, Nat.testBit_or,
    Bool.and_eq_true, Bool.or_eq_true, decide_eq_true_eq]
  tauto

/-- On the board, the `vacant` mask is the pointwise negation of the
occupancy. -/
theorem test_bit_vacant (g : game) (q : Int) (h : 0 ≤ q ∧ q < 64) :
    test_bit (vacant g) q = !(test_bit (occupied g) q) := by
  unfold vacant test_bit
  rw [if_pos h, if_pos h]
  have hq : q.toNat < 64 := by omega
  rw [Nat.testBit_xor, Nat.testBit_two_pow_sub_one]
  simp [hq]

/-- Characterisation of the bits set by the pawn-push part. -/
theorem test_bit_pawn_push_part (vac : Nat) (c : color) (s : Nat) (q : Int) :
    test_bit (pawn_push_part vac c s) q = true ↔
      (test_bit vac ((s : Int) + get_pawn_direction c) = true ∧
        ((q = (s : Int) + get_pawn_direction c ∧ 0 ≤ q ∧ q < 64) ∨
         (q = (s : Int) + 2 * get_pawn_direction c ∧ 0 ≤ q ∧ q < 64 ∧
           get_row s = start_row c ∧
           test_bit vac ((s : Int) + 2 * get_pawn_direction c) = true))) := by
  have h2 : ((s : Int) + get_pawn_direction c) + get_pawn_direction c
      = (s : Int) + 2 * get_pawn_direction c := by ring
  simp only [pawn_push_part, h2]
  by_cases hv : test_bit vac ((s : Int) + get_pawn_direction c) = true
  · rw [if_pos hv]
    by_cases hr : get_row s = start_row c ∧
        test_bit vac ((s : Int) + 2 * get_pawn_direction c) = true
    · rw [if_pos hr]
      rw [test_bit_set_bit, test_bit_set_bit, test_bit_zero_mask]
      simp only [Bool.false_or, Bool.or_eq_true, Bool.and_eq_true,
        decide_eq_true_eq]
      constructor
      · rintro (⟨h1, hr1⟩ | ⟨h1, hr1⟩)
        · exact ⟨hv, Or.inl ⟨h1.symm, by omega⟩⟩
        · exact ⟨hv, Or.inr ⟨h1.symm, by omega, by omega, hr.1, hr.2⟩⟩
      · rintro ⟨_, (⟨h1, hr1⟩ | ⟨h1, hr1, hr2, _, _⟩)⟩
        · exact Or.inl ⟨h1.symm, by omega⟩
        · exact Or.inr ⟨h1.symm, by omega⟩
    · rw [if_neg hr]
      rw [test_bit_set_bit, test_bit_zero_mask]
      simp only [Bool.false_or, Bool.and_eq_true, decide_eq_true_eq]
      constructor
      · rintro ⟨h1, hr1⟩
        exact ⟨hv, Or.inl ⟨h1.symm, by omega⟩⟩
      · rintro ⟨_, (⟨h1, hr1⟩ | ⟨h1, hr1, hr2, hrow, hv2⟩)⟩
        · exact ⟨h1.symm, by omega⟩
        · exact absurd ⟨hrow, hv2⟩ hr
  · rw [if_neg hv]
    rw [test_bit_zero_mask]
    refine iff_of_false (by simp) ?_
    rintro ⟨hv', _⟩
    exact hv hv'

/-- Characterisation of the bits set by the `add_capture` contribution. -/
theorem test_bit_add_capture (vac : Nat) (ep : Int) (s : Nat) (pd dir : Int) (q : Int) :
    test_bit (add_capture vac ep s pd dir) q = true ↔
      (get_col s ≠ (if dir = left then 0 else 7) ∧ q = (s : Int) + pd + dir ∧
        0 ≤ q ∧ q < 64 ∧ (test_bit vac q = false ∨ q = ep)) := by
  simp only [add_capture]
  by_cases hc : get_col s = (if dir = left then 0 else 7)
  · rw [if_pos hc]
    rw [test_bit_zero_mask]
    simp [hc]
  · rw [if_neg hc]
    by_cases hcond : test_bit vac ((s : Int) + pd + dir) = false ∨ (s : Int) + pd + dir = ep
    · rw [if_pos hcond]
      rw [test_bit_set_bit, test_bit_zero_mask]
      simp only [Bool.false_or, Bool.and_eq_true, decide_eq_true_eq]
      constructor
      · rintro ⟨h1, hr1⟩
        refine ⟨hc, h1.symm, by omega, by omega, ?_⟩
        rw [h1] at hcond
        exact hcond
      · rintro ⟨_, h1, hr1, hr2, _⟩
        exact ⟨h1.symm, by omega⟩
    · rw [if_neg hcond]
      rw [test_bit_zero_mask]
      refine iff_of_false (by simp) ?_
      rintro ⟨_, h1, _, _, hor⟩
      rw [h1] at hor
      exact hcond hor

/-- Characterisation of the bits set by the full per-square pawn-move body:
single push, double push, left capture, right capture. -/
theorem test_bit_pawn_square (vac : Nat) (ep : Int) (c : color) (s : Nat) (q : Int) :
    test_bit (pawn_square_moves vac ep c s) q = true ↔
      (test_bit vac ((s : Int) + get_pawn_direction c) = true ∧
        ((q = (s : Int) + get_pawn_direction c ∧ 0 ≤ q ∧ q < 64) ∨
         (q = (s : Int) + 2 * get_pawn_direction c ∧ 0 ≤ q ∧ q < 64 ∧
           get_row s = start_row c ∧
           test_bit vac ((s : Int) + 2 * get_pawn_direction c) = true))) ∨
      (get_col s ≠ 0 ∧ q = (s : Int) + get_pawn_direction c + left ∧
        0 ≤ q ∧ q < 64 ∧ (test_bit vac q = false ∨ q = ep)) ∨
      (get_col s ≠ 7 ∧ q = (s : Int) + get_pawn_direction c + right ∧
        0 ≤ q ∧ q < 64 ∧ (test_bit vac q = false ∨ q = ep)) := by
  have hleft : ((if left = left then (0 : Nat) else 7)) = 0 := by decide
  have hright : ((if right = left then (0 : Nat) else 7)) = 7 := by decide
  simp only [pawn_square_moves]
  rw [test_bit_lor, test_bit_lor, Bool.or_eq_true, Bool.or_eq_true,
    test_bit_pawn_push_part, test_bit_add_capture, test_bit_add_capture,
    hleft, hright, or_assoc]

/-! ### Claims -/

/-- C1: the claim predicts that for white every source square `s` contributes
the pawn-attack table entry of `s - 8` (shift toward lower indices, white's
forward direction).  Evaluating the code at the failing input `b = 2 ^ 48`
(one white pawn on square 48, row 6, column 0): the code shifts the mask
toward HIGHER indices (`b <<= 8`) and returns the table entry of square 56,
namely `2 ^ 57`, whereas the table entry of square 40 demanded by the claim
(and by the code's own comment "shift all bits up") is `2 ^ 41`. -/
theorem claim_C1_pawn_attacks_shift_eval :
    empty_game.get_pawn_attacks (2 ^ 48) color.white = 2 ^ 57 ∧
    make_jump_table pawn_attack_offsets 56 = 2 ^ 57 ∧
    make_jump_table pawn_attack_offsets 40 = 2 ^ 41 := by
  refine ⟨?_, by decide, by decide⟩
  have h1 : (((2 ^ 48 : Nat) % 2 ^ 64) <<< 8) % 2 ^ 64 = 2 ^ 56 := by
    norm_num [Nat.shiftLeft_eq]
  simp only [empty_game, game.get_pawn_attacks]
  rw [h1, scanUnion_two_pow _ 56 (by norm_num)]
  decide

/-- C7: the queen result is the bitwise union of the bishop and rook results
for the same source mask on the same board. -/
theorem claim_C7_queen_union (g : game) (b : Nat) :
    g.get_queen_moves b = g.get_bishop_moves b ||| g.get_rook_moves b := rfl

/-- C9: knight moves, king moves and pawn attacks are independent of the
board occupancy (and of the whole ambient game state): two calls with the
same source mask (and color) on different game states agree. -/
theorem claim_C9_occupancy_independent (g1 g2 : game) (b : Nat) (c : color) :
    g1.get_knight_moves b = g2.get_knight_moves b ∧
    g1.get_king_moves b = g2.get_king_moves b ∧
    g1.get_pawn_attacks b c = g2.get_pawn_attacks b c :=
  ⟨rfl, rfl, rfl⟩

/-- C8: every generator is a union homomorphism in its source mask (for a
fixed game state and color), and maps the empty mask to the empty
bitboard. -/
theorem claim_C8_union_homomorphism (g : game) (c : color) (a b : Nat) :
    (g.get_pawn_moves (a ||| b) c = g.get_pawn_moves a c ||| g.get_pawn_moves b c) ∧
    (g.get_pawn_attacks (a ||| b) c = g.get_pawn_attacks a c ||| g.get_pawn_attacks b c) ∧
    (g.get_knight_moves (a ||| b) = g.get_knight_moves a ||| g.get_knight_moves b) ∧
    (g.get_king_moves (a ||| b) = g.get_king_moves a ||| g.get_king_moves b) ∧
    (g.get_bishop_moves (a ||| b) = g.get_bishop_moves a ||| g.get_bishop_moves b) ∧
    (g.get_rook_moves (a ||| b) = g.get_rook_moves a ||| g.get_rook_moves b) ∧
    (g.get_queen_moves (a ||| b) = g.get_queen_moves a ||| g.get_queen_moves b) ∧
    (g.get_pawn_moves 0 c = 0) ∧
    (g.get_pawn_attacks 0 c = 0) ∧
    (g.get_knight_moves 0 = 0) ∧
    (g.get_king_moves 0 = 0) ∧
    (g.get_bishop_moves 0 = 0) ∧
    (g.get_rook_moves 0 = 0) ∧
    (g.get_queen_moves 0 = 0) := by
  have hpa : g.get_pawn_attacks (a ||| b) c
      = g.get_pawn_attacks a c ||| g.get_pawn_attacks b c := by
    cases c
    · simp only [game.get_pawn_attacks]
      rw [shl8_mask_lor, scanUnion_lor]
    · simp only [game.get_pawn_attacks]
      rw [shr8_mask_lor, scanUnion_lor]
  have hpa0 : g.get_pawn_attacks 0 c = 0 := by
    cases c
    · simp only [game.get_pawn_attacks]
      norm_num
      exact scanUnion_zero_mask _
    · simp only [game.get_pawn_attacks]
      norm_num
      exact scanUnion_zero_mask _
  have hB := scanUnion_lor a b (slide_square (occupied g) bishop_dirs)
  have hR := scanUnion_lor a b (slide_square (occupied g) rook_dirs)
  have hQ : g.get_queen_moves (a ||| b) = g.get_queen_moves a ||| g.get_queen_moves b := by
    simp only [game.get_queen_moves, game.get_bishop_moves, game.get_rook_moves]
    rw [hB, hR]
    apply Nat.eq_of_testBit_eq
    intro q
    simp only [Nat.testBit_or]
    cases (scanUnion a (slide_square (occupied g) bishop_dirs)).testBit q <;>
      cases (scanUnion b (slide_square (occupied g) bishop_dirs)).testBit q <;>
      cases (scanUnion a (slide_square (occupied g) rook_dirs)).testBit q <;>
      cases (scanUnion b (slide_square (occupied g) rook_dirs)).testBit q <;>
      rfl
  refine ⟨scanUnion_lor a b _, hpa, scanUnion_lor a b _, scanUnion_lor a b _,
    hB, hR, hQ, scanUnion_zero_mask _, hpa0, scanUnion_zero_mask _,
    scanUnion_zero_mask _, scanUnion_zero_mask _, scanUnion_zero_mask _, ?_⟩
  simp only [game.get_queen_moves, game.get_bishop_moves, game.get_rook_moves]
  rw [scanUnion_zero_mask, scanUnion_zero_mask]
  simp

/-- C10: sources on the rank shifted out by the 64-bit shift contribute
nothing to `get_pawn_attacks`: squares 56-63 for white (left shift by 8),
squares 0-7 for black (right shift by 8). -/
theorem claim_C10_shifted_out_sources (g : game) (b : Nat) (s : Nat) :
    (56 ≤ s → s < 64 →
      g.get_pawn_attacks (b ||| 2 ^ s) color.white = g.get_pawn_attacks b color.white) ∧
    (s < 8 →
      g.get_pawn_attacks (b ||| 2 ^ s) color.black = g.get_pawn_attacks b color.black) := by
  constructor
  · intro h1 h2
    have h : (((b ||| 2 ^ s) % 2 ^ 64) <<< 8) % 2 ^ 64 = ((b % 2 ^ 64) <<< 8) % 2 ^ 64 := by
      apply Nat.eq_of_testBit_eq
      intro q
      rw [Bool.eq_iff_iff]
      simp only [Nat.testBit_mod_two_pow, Nat.testBit_shiftLeft, Nat.testBit_or,
        Nat.testBit_two_pow, Bool.and_eq_true, Bool.or_eq_true, decide_eq_true_eq]
      constructor
      · rintro ⟨hq, hle, hlt, (hb | hs)⟩
        · exact ⟨hq, hle, hlt, hb⟩
        · omega
      · rintro ⟨hq, hle, hlt, hb⟩
        exact ⟨hq, hle, hlt, Or.inl hb⟩
    simp only [game.get_pawn_attacks]
    rw [h]
  · intro h1
    have h : ((b ||| 2 ^ s) % 2 ^ 64) >>> 8 = (b % 2 ^ 64) >>> 8 := by
      apply Nat.eq_of_testBit_eq
      intro q
      rw [Bool.eq_iff_iff]
      simp only [Nat.testBit_mod_two_pow, Nat.testBit_shiftRight, Nat.testBit_or,
        Nat.testBit_two_pow, Bool.and_eq_true, Bool.or_eq_true, decide_eq_true_eq]
      constructor
      · rintro ⟨hq, (hb | hs)⟩
        · exact ⟨hq, hb⟩
        · omega
      · rintro ⟨hq, hb⟩
        exact ⟨hq, Or.inl hb⟩
    simp only [game.get_pawn_attacks]
    rw [h]

/-- Witness for C10 at concrete inputs: adding a source on square 56 (white)
or square 0 (black) leaves the pawn-attack result unchanged. -/
theorem claim_C10_shifted_out_sources_witness :
    (empty_game.get_pawn_attacks (2 ^ 20 ||| 2 ^ 56) color.white
      = empty_game.get_pawn_attacks (2 ^ 20) color.white) ∧
    (empty_game.get_pawn_attacks (2 ^ 20 ||| 2 ^ 0) color.black
      = empty_game.get_pawn_attacks (2 ^ 20) color.black) :=
  ⟨(claim_C10_shifted_out_sources empty_game (2 ^ 20) 56).1 (by decide) (by decide),
   (claim_C10_shifted_out_sources empty_game (2 ^ 20) 0).2 (by decide)⟩

/-- C3: for a single pawn on its color's starting row, the single push is
reachable iff the square ahead is vacant; the double push is additionally
reachable when both squares ahead are vacant; and a blocked square ahead
forfeits both push destinations, whatever the state of the square two ranks
ahead. -/
theorem claim_C3_double_push_gating (g : game) (c : color) (s : Nat) (hs : s < 64)
    (hrow : get_row s = start_row c) :
    (test_bit (vacant g) ((s : Int) + get_pawn_direction c) = true →
      test_bit (g.get_pawn_moves (2 ^ s) c) ((s : Int) + get_pawn_direction c) = true) ∧
    (test_bit (vacant g) ((s : Int) + get_pawn_direction c) = true →
      test_bit (vacant g) ((s : Int) + 2 * get_pawn_direction c) = true →
      test_bit (g.get_pawn_moves (2 ^ s) c) ((s : Int) + 2 * get_pawn_direction c) = true) ∧
    (test_bit (vacant g) ((s : Int) + get_pawn_direction c) = false →
      test_bit (g.get_pawn_moves (2 ^ s) c) ((s : Int) + get_pawn_direction c) = false ∧
      test_bit (g.get_pawn_moves (2 ^ s) c) ((s : Int) + 2 * get_pawn_direction c) = false) := by
  have hl : left = -1 := rfl
  have hr1 : right = 1 := rfl
  have hb : (get_pawn_direction c = -8 ∧ s / 8 = 6) ∨
      (get_pawn_direction c = 8 ∧ s / 8 = 1) := by
    cases c
    · refine Or.inl ⟨rfl, ?_⟩
      simpa [get_row, start_row] using hrow
    · refine Or.inr ⟨rfl, ?_⟩
      simpa [get_row, start_row] using hrow
  simp only [game.get_pawn_moves]
  rw [scanUnion_two_pow _ s hs]
  refine ⟨?_, ?_, ?_⟩
  · intro hv
    rw [test_bit_pawn_square]
    exact Or.inl ⟨hv, Or.inl ⟨rfl, by omega, by omega⟩⟩
  · intro hv hv2
    rw [test_bit_pawn_square]
    exact Or.inl ⟨hv, Or.inr ⟨rfl, by omega, by omega, hrow, hv2⟩⟩
  · intro hv
    constructor
    · rw [← Bool.not_eq_true, test_bit_pawn_square]
      rintro (⟨hv', _⟩ | ⟨hcol, hq, _⟩ | ⟨hcol, hq, _⟩)
      · simp [hv] at hv'
      · omega
      · omega
    · rw [← Bool.not_eq_true, test_bit_pawn_square]
      rintro (⟨hv', _⟩ | ⟨hcol, hq, _⟩ | ⟨hcol, hq, _⟩)
      · simp [hv] at hv'
      · omega
      · omega

/-- Witness for C3: a white pawn on square 48 (row 6, column 0).  On an empty
board both push destinations 40 and 32 are reachable; with a blocker on
square 40, neither is. -/
theorem claim_C3_double_push_gating_witness :
    (test_bit (empty_game.get_pawn_moves (2 ^ 48) color.white)
        ((48 : Int) + get_pawn_direction color.white) = true) ∧
    (test_bit (empty_game.get_pawn_moves (2 ^ 48) color.white)
        ((48 : Int) + 2 * get_pawn_direction color.white) = true) ∧
    (test_bit ((⟨⟨0, 2 ^ 40⟩, -1⟩ : game).get_pawn_moves (2 ^ 48) color.white)
        ((48 : Int) + get_pawn_direction color.white) = false ∧
      test_bit ((⟨⟨0, 2 ^ 40⟩, -1⟩ : game).get_pawn_moves (2 ^ 48) color.white)
        ((48 : Int) + 2 * get_pawn_direction color.white) = false) :=
  ⟨(claim_C3_double_push_gating empty_game color.white 48 (by decide) (by decide)).1
      (by decide),
   (claim_C3_double_push_gating empty_game color.white 48 (by decide) (by decide)).2.1
      (by decide) (by decide),
   (claim_C3_double_push_gating (⟨⟨0, 2 ^ 40⟩, -1⟩ : game) color.white 48 (by decide)
      (by decide)).2.2 (by decide)⟩

/-- C4: for a single pawn away from both edge columns, with the square ahead
on the board, a diagonal destination is reachable exactly when it is occupied
by either color or equals the en-passant target. -/
theorem claim_C4_capture_or_en_passant (g : game) (c : color) (s : Nat) (d : Int)
    (hs : s < 64) (hc0 : get_col s ≠ 0) (hc7 : get_col s ≠ 7)
    (hd : d = left ∨ d = right)
    (hrange : 0 ≤ (s : Int) + get_pawn_direction c ∧
      (s : Int) + get_pawn_direction c < 64) :
    test_bit (g.get_pawn_moves (2 ^ s) c) ((s : Int) + get_pawn_direction c + d)
      = (!test_bit (vacant g) ((s : Int) + get_pawn_direction c + d) ||
          decide ((s : Int) + get_pawn_direction c + d = g.en_passant)) := by
  have hl : left = -1 := rfl
  have hr1 : right = 1 := rfl
  have hc0' : s % 8 ≠ 0 := hc0
  have hc7' : s % 8 ≠ 7 := hc7
  have hpd : get_pawn_direction c = -8 ∨ get_pawn_direction c = 8 := by
    cases c
    · exact Or.inl rfl
    · exact Or.inr rfl
  simp only [game.get_pawn_moves]
  rw [scanUnion_two_pow _ s hs]
  rw [Bool.eq_iff_iff, test_bit_pawn_square, Bool.or_eq_true,
    Bool.not_eq_true', decide_eq_true_eq]
  constructor
  · rintro (⟨_, (⟨hq, _⟩ | ⟨hq, _⟩)⟩ | ⟨_, _, _, _, hcond⟩ | ⟨_, _, _, _, hcond⟩)
    · omega
    · omega
    · exact hcond
    · exact hcond
  · intro hrhs
    rcases hd with hd | hd <;> subst hd
    · exact Or.inr (Or.inl ⟨hc0, rfl, by omega, by omega, hrhs⟩)
    · exact Or.inr (Or.inr ⟨hc7, rfl, by omega, by omega, hrhs⟩)

/-- Witness for C4: a white pawn on square 49 (row 6, column 1) with a black
piece on the diagonal square 40 and the en-passant sentinel -1: the diagonal
square is reachable and the equation evaluates on both sides. -/
theorem claim_C4_capture_or_en_passant_witness :
    test_bit ((⟨⟨0, 2 ^ 40⟩, -1⟩ : game).get_pawn_moves (2 ^ 49) color.white)
        ((49 : Int) + get_pawn_direction color.white + left)
      = (!test_bit (vacant (⟨⟨0, 2 ^ 40⟩, -1⟩ : game))
            ((49 : Int) + get_pawn_direction color.white + left) ||
          decide ((49 : Int) + get_pawn_direction color.white + left
            = (⟨⟨0, 2 ^ 40⟩, -1⟩ : game).en_passant)) :=
  claim_C4_capture_or_en_passant (⟨⟨0, 2 ^ 40⟩, -1⟩ : game) color.white 49 left
    (by decide) (by decide) (by decide) (Or.inl rfl) (by decide)

/-- C5: a pawn on column 0 never yields its left-capture destination and a
pawn on column 7 never yields its right-capture destination, for every board
occupancy and en-passant target. -/
theorem claim_C5_edge_clipping (g : game) (c : color) (s : Nat) (hs : s < 64) :
    (get_col s = 0 →
      test_bit (g.get_pawn_moves (2 ^ s) c)
        ((s : Int) + get_pawn_direction c + left) = false) ∧
    (get_col s = 7 →
      test_bit (g.get_pawn_moves (2 ^ s) c)
        ((s : Int) + get_pawn_direction c + right) = false) := by
  have hl : left = -1 := rfl
  have hr1 : right = 1 := rfl
  have hpd : get_pawn_direction c = -8 ∨ get_pawn_direction c = 8 := by
    cases c
    · exact Or.inl rfl
    · exact Or.inr rfl
  simp only [game.get_pawn_moves]
  rw [scanUnion_two_pow _ s hs]
  constructor
  · intro hc0
    rw [← Bool.not_eq_true, test_bit_pawn_square]
    rintro (⟨_, (⟨hq, _⟩ | ⟨hq, _⟩)⟩ | ⟨hcol, _⟩ | ⟨_, hq, _⟩)
    · omega
    · omega
    · exact hcol hc0
    · omega
  · intro hc7
    rw [← Bool.not_eq_true, test_bit_pawn_square]
    rintro (⟨_, (⟨hq, _⟩ | ⟨hq, _⟩)⟩ | ⟨_, hq, _⟩ | ⟨hcol, _⟩)
    · omega
    · omega
    · omega
    · exact hcol hc7

/-- Witness for C5: a white pawn on square 48 (column 0) does not reach the
wrapped left-capture index 39, and one on square 55 (column 7) does not reach
the wrapped right-capture index 48, even with every square occupied by black
pieces and a matching en-passant target. -/
theorem claim_C5_edge_clipping_witness :
    (test_bit ((⟨⟨0, 2 ^ 64 - 1⟩, 39⟩ : game).get_pawn_moves (2 ^ 48) color.white)
        ((48 : Int) + get_pawn_direction color.white + left) = false) ∧
    (test_bit ((⟨⟨0, 2 ^ 64 - 1⟩, 48⟩ : game).get_pawn_moves (2 ^ 55) color.white)
        ((55 : Int) + get_pawn_direction color.white + right) = false) :=
  ⟨(claim_C5_edge_clipping (⟨⟨0, 2 ^ 64 - 1⟩, 39⟩ : game) color.white 48
      (by decide)).1 (by decide),
   (claim_C5_edge_clipping (⟨⟨0, 2 ^ 64 - 1⟩, 48⟩ : game) color.white 55
      (by decide)).2 (by decide)⟩

/-- C6: the diagonal-capture rule is color-blind: for a pawn not on the edge
column relevant to the direction (column 0 for left, column 7 for right), a
diagonal square occupied by a piece of the pawn's own color is still marked
reachable — the generator performs no enemy-occupancy check. -/
theorem claim_C6_color_blind_capture (g : game) (c : color) (s : Nat) (d : Int)
    (hs : s < 64)
    (hd : d = left ∨ d = right)
    (hedge : get_col s ≠ (if d = left then 0 else 7))
    (hown : test_bit
        (match c with
          | color.white => g.board.white
          | color.black => g.board.black)
        ((s : Int) + get_pawn_direction c + d) = true) :
    test_bit (g.get_pawn_moves (2 ^ s) c)
      ((s : Int) + get_pawn_direction c + d) = true := by
  have hqr : 0 ≤ (s : Int) + get_pawn_direction c + d ∧
      (s : Int) + get_pawn_direction c + d < 64 := by
    by_contra h
    unfold test_bit at hown
    rw [if_neg h] at hown
    exact Bool.false_ne_true hown
  have hocc : test_bit (occupied g) ((s : Int) + get_pawn_direction c + d) = true := by
    unfold test_bit at hown ⊢
    rw [if_pos hqr] at hown ⊢
    have hq64 : ((s : Int) + get_pawn_direction c + d).toNat < 64 := by omega
    simp only [occupied, Nat.testBit_mod_two_pow, Nat.testBit_or, hq64,
      decide_eq_true_eq, decide_True, Bool.true_and, Bool.or_eq_true]
    cases c
    · exact Or.inr hown
    · exact Or.inl hown
  have hvac : test_bit (vacant g) ((s : Int) + get_pawn_direction c + d) = false := by
    rw [test_bit_vacant g _ hqr, hocc]
    rfl
  simp only [game.get_pawn_moves]
  rw [scanUnion_two_pow _ s hs]
  rw [test_bit_pawn_square]
  rcases hd with hd | hd <;> subst hd
  · have hc0 : get_col s ≠ 0 := by
      rw [if_pos rfl] at hedge
      exact hedge
    exact Or.inr (Or.inl ⟨hc0, rfl, hqr.1, hqr.2, Or.inl hvac⟩)
  · have hc7 : get_col s ≠ 7 := by
      rw [if_neg (by decide)] at hedge
      exact hedge
    exact Or.inr (Or.inr ⟨hc7, rfl, hqr.1, hqr.2, Or.inl hvac⟩)

/-- Witness for C6: a white pawn on square 55 (column 7, away only from the
left edge) with a white piece on its forward-left diagonal square 46 still
marks 46 as reachable, and a white pawn on square 49 with a white piece on
its forward-left diagonal square 40 still marks 40 as reachable. -/
theorem claim_C6_color_blind_capture_witness :
    (test_bit ((⟨⟨2 ^ 46, 0⟩, -1⟩ : game).get_pawn_moves (2 ^ 55) color.white)
      ((55 : Int) + get_pawn_direction color.white + left) = true) ∧
    (test_bit ((⟨⟨2 ^ 40, 0⟩, -1⟩ : game).get_pawn_moves (2 ^ 49) color.white)
      ((49 : Int) + get_pawn_direction color.white + left) = true) :=
  ⟨claim_C6_color_blind_capture (⟨⟨2 ^ 46, 0⟩, -1⟩ : game) color.white 55 left
    (by decide) (Or.inl rfl) (by decide) (by decide),
   claim_C6_color_blind_capture (⟨⟨2 ^ 40, 0⟩, -1⟩ : game) color.white 49 left
    (by decide) (Or.inl rfl) (by decide) (by decide)⟩

/-- The valid-dimension test as a proposition. -/
theorem is_valid_dimension_iff (i : Int) :
    is_valid_dimension i = true ↔ 0 ≤ i ∧ i < 8 := by
  simp [is_valid_dimension]

/-- Characterisation of the bits marked by the sliding-ray walk: bit `q` is
set iff for some step count `t` below the fuel, every earlier candidate was
on the board and vacant, the `t`-th candidate is on the board, and `q` is its
index. -/
theorem test_bit_walk (occ : Nat) (dr dc : Int) :
    ∀ (n : Nat) (i j q : Int),
      test_bit (walk occ dr dc n i j) q = true ↔
        ∃ t : Nat, t < n ∧
          (∀ u : Nat, u < t →
            (0 ≤ i + (u : Int) * dr ∧ i + (u : Int) * dr < 8 ∧
             0 ≤ j + (u : Int) * dc ∧ j + (u : Int) * dc < 8) ∧
            test_bit occ (8 * (i + (u : Int) * dr) + (j + (u : Int) * dc)) = false) ∧
          (0 ≤ i + (t : Int) * dr ∧ i + (t : Int) * dr < 8 ∧
           0 ≤ j + (t : Int) * dc ∧ j + (t : Int) * dc < 8) ∧
          q = 8 * (i + (t : Int) * dr) + (j + (t : Int) * dc)
  | 0, i, j, q => by
    simp only [walk]
    rw [test_bit_zero_mask]
    refine iff_of_false (by simp) ?_
    rintro ⟨t, ht, _⟩
    omega
  | Nat.succ n, i, j, q => by
    simp only [walk]
    by_cases hval : (is_valid_dimension i && is_valid_dimension j) = true
    · rw [if_pos hval]
      rw [Bool.and_eq_true, is_valid_dimension_iff, is_valid_dimension_iff] at hval
      obtain ⟨hvi, hvj⟩ := hval
      by_cases hocc : test_bit occ (8 * i + j) = true
      · rw [if_pos hocc]
        rw [test_bit_lor, test_bit_zero_mask, Bool.or_false, test_bit_set_bit,
          test_bit_zero_mask, Bool.false_or, Bool.and_eq_true]
        simp only [decide_eq_true_eq]
        constructor
        · rintro ⟨hq, hr⟩
          refine ⟨0, by omega, fun u hu => absurd hu (Nat.not_lt_zero u),
            by simpa using ⟨hvi.1, hvi.2, hvj.1, hvj.2⟩, by simpa using hq.symm⟩
        · rintro ⟨t, htn, hall, hvalid, hq⟩
          cases t with
          | zero =>
            refine ⟨by simpa using hq.symm, by omega⟩
          | succ t' =>
            exfalso
            have h0 : test_bit occ (8 * i + j) = false := by
              simpa using (hall 0 (by omega)).2
            rw [h0] at hocc
            exact Bool.false_ne_true hocc
      · rw [if_neg hocc]
        have hocc' : test_bit occ (8 * i + j) = false := by
          cases h : test_bit occ (8 * i + j)
          · rfl
          · exact absurd h hocc
        rw [test_bit_lor, Bool.or_eq_true, test_bit_set_bit, test_bit_zero_mask,
          Bool.false_or, Bool.and_eq_true]
        simp only [decide_eq_true_eq]
        rw [test_bit_walk occ dr dc n (i + dr) (j + dc) q]
        constructor
        · rintro (⟨hq, hr⟩ | ⟨t, htn, hall, hvalid, hq⟩)
          · refine ⟨0, by omega, fun u hu => absurd hu (Nat.not_lt_zero u),
              by simpa using ⟨hvi.1, hvi.2, hvj.1, hvj.2⟩, by simpa using hq.symm⟩
          · refine ⟨t + 1, by omega, ?_, ?_, ?_⟩
            · intro u hu
              cases u with
              | zero =>
                exact ⟨by simpa using ⟨hvi.1, hvi.2, hvj.1, hvj.2⟩,
                  by simpa using hocc'⟩
              | succ u' =>
                have h := hall u' (by omega)
                have e1 : i + dr + (u' : Int) * dr = i + ((u'.succ : Nat) : Int) * dr := by
                  push_cast
                  ring
                have e2 : j + dc + (u' : Int) * dc = j + ((u'.succ : Nat) : Int) * dc := by
                  push_cast
                  ring
                rw [e1, e2] at h
                exact h
            · have e1 : i + dr + (t : Int) * dr = i + ((t + 1 : Nat) : Int) * dr := by
                push_cast
                ring
              have e2 : j + dc + (t : Int) * dc = j + ((t + 1 : Nat) : Int) * dc := by
                push_cast
                ring
              rw [e1, e2] at hvalid
              exact hvalid
            · have e1 : i + dr + (t : Int) * dr = i + ((t + 1 : Nat) : Int) * dr := by
                push_cast
                ring
              have e2 : j + dc + (t : Int) * dc = j + ((t + 1 : Nat) : Int) * dc := by
                push_cast
                ring
              rw [e1, e2] at hq
              exact hq
        · rintro ⟨t, htn, hall, hvalid, hq⟩
          cases t with
          | zero =>
            exact Or.inl ⟨by simpa using hq.symm, by omega⟩
          | succ t' =>
            right
            have e1 : ∀ v : Nat, i + ((v + 1 : Nat) : Int) * dr = i + dr + (v : Int) * dr := by
              intro v
              push_cast
              ring
            have e2 : ∀ v : Nat, j + ((v + 1 : Nat) : Int) * dc = j + dc + (v : Int) * dc := by
              intro v
              push_cast
              ring
            refine ⟨t', by omega, ?_, ?_, ?_⟩
            · intro u hu
              have h := hall (u + 1) (by omega)
              rw [e1 u, e2 u] at h
              exact h
            · rw [e1 t', e2 t'] at hvalid
              exact hvalid
            · rw [e1 t', e2 t'] at hq
              exact hq
    · rw [if_neg hval]
      rw [test_bit_zero_mask]
      refine iff_of_false (by simp) ?_
      rintro ⟨t, htn, hall, hvalid, hq⟩
      have hv0 : 0 ≤ i ∧ i < 8 ∧ 0 ≤ j ∧ j < 8 := by
        cases t with
        | zero => simpa using hvalid
        | succ t' => simpa using (hall 0 (by omega)).1
      apply hval
      rw [Bool.and_eq_true, is_valid_dimension_iff, is_valid_dimension_iff]
      exact ⟨⟨hv0.1, hv0.2.1⟩, ⟨hv0.2.2.1, hv0.2.2.2⟩⟩

/-- Reading a bit of a fold of unions. -/
theorem test_bit_foldl_lor {α : Type} (f : α → Nat) (q : Int) :
    ∀ (l : List α) (acc : Nat),
      test_bit (l.foldl (fun m d => m ||| f d) acc) q = true ↔
        test_bit acc q = true ∨ ∃ d ∈ l, test_bit (f d) q = true
  | [], acc => by simp
  | a :: l, acc => by
    simp only [List.foldl_cons]
    rw [test_bit_foldl_lor f q l (acc ||| f a)]
    rw [test_bit_lor, Bool.or_eq_true]
    constructor
    · rintro ((h | h) | h)
      · exact Or.inl h
      · exact Or.inr ⟨a, List.mem_cons_self a l, h⟩
      · obtain ⟨d, hd, h⟩ := h
        exact Or.inr ⟨d, List.mem_cons_of_mem a hd, h⟩
    · rintro (h | ⟨d, hd, h⟩)
      · exact Or.inl (Or.inl h)
      · rcases List.mem_cons.mp hd with rfl | hd'
        · exact Or.inl (Or.inr h)
        · exact Or.inr ⟨d, hd', h⟩

/-- A bit of the per-square sliding contribution comes from one of the four
directional walks. -/
theorem test_bit_slide_square (occ : Nat) (dirs : List (Int × Int)) (s : Nat) (q : Int) :
    test_bit (slide_square occ dirs s) q = true ↔
      ∃ d ∈ dirs,
        test_bit (walk occ d.1 d.2 8 ((get_row s : Int) + d.1) ((get_col s : Int) + d.2))
          q = true := by
  unfold slide_square
  rw [test_bit_foldl_lor]
  rw [test_bit_zero_mask]
  simp

/-- Between an on-board start and an on-board point at distance `k` along a
unit direction, every intermediate ray point is on the board. -/
theorem ray_on_board_of_le (dr dc r c : Int) (k : Nat)
    (hdr : dr = -1 ∨ dr = 0 ∨ dr = 1) (hdc : dc = -1 ∨ dc = 0 ∨ dc = 1)
    (hr : 0 ≤ r ∧ r < 8) (hc : 0 ≤ c ∧ c < 8)
    (hkb : 0 ≤ r + (k : Int) * dr ∧ r + (k : Int) * dr < 8 ∧
           0 ≤ c + (k : Int) * dc ∧ c + (k : Int) * dc < 8) :
    ∀ v : Nat, v ≤ k →
      0 ≤ r + (v : Int) * dr ∧ r + (v : Int) * dr < 8 ∧
      0 ≤ c + (v : Int) * dc ∧ c + (v : Int) * dc < 8 := by
  intro v hv
  rcases hdr with h | h | h <;> rcases hdc with h' | h' | h' <;> subst h <;> subst h' <;>
    omega

/-- A ray that stays on the board through distance `k` along a nonzero unit
direction has `k ≤ 7`. -/
theorem ray_le_seven (dr dc r c : Int) (k : Nat)
    (hdr : dr = -1 ∨ dr = 0 ∨ dr = 1) (hdc : dc = -1 ∨ dc = 0 ∨ dc = 1)
    (hnz : ¬(dr = 0 ∧ dc = 0))
    (hr : 0 ≤ r ∧ r < 8) (hc : 0 ≤ c ∧ c < 8)
    (hkb : 0 ≤ r + (k : Int) * dr ∧ r + (k : Int) * dr < 8 ∧
           0 ≤ c + (k : Int) * dc ∧ c + (k : Int) * dc < 8) :
    k ≤ 7 := by
  rcases hdr with h | h | h <;> rcases hdc with h' | h' | h' <;> subst h <;> subst h' <;>
    omega

/-- If the ray from a source is vacant strictly before distance `m` and the
point at distance `m` is on the board (with some on-board bound `k ≥ m`
witnessing it), the directional walk marks the ray point at distance `m`. -/
theorem walk_ray_hit (occ : Nat) (dr dc r c : Int) (k m : Nat)
    (hdr : dr = -1 ∨ dr = 0 ∨ dr = 1) (hdc : dc = -1 ∨ dc = 0 ∨ dc = 1)
    (hnz : ¬(dr = 0 ∧ dc = 0))
    (hr : 0 ≤ r ∧ r < 8) (hc : 0 ≤ c ∧ c < 8)
    (hm : 1 ≤ m) (hmk : m ≤ k)
    (hkb : 0 ≤ r + (k : Int) * dr ∧ r + (k : Int) * dr < 8 ∧
           0 ≤ c + (k : Int) * dc ∧ c + (k : Int) * dc < 8)
    (hvac : ∀ u : Nat, 1 ≤ u → u < m →
      test_bit occ (8 * (r + (u : Int) * dr) + (c + (u : Int) * dc)) = false) :
    test_bit (walk occ dr dc 8 (r + dr) (c + dc))
      (8 * (r + (m : Int) * dr) + (c + (m : Int) * dc)) = true := by
  have hk7 : k ≤ 7 := ray_le_seven dr dc r c k hdr hdc hnz hr hc hkb
  have hmono := ray_on_board_of_le dr dc r c k hdr hdc hr hc hkb
  rw [test_bit_walk]
  have em : ((m - 1 : Nat) : Int) = (m : Int) - 1 := by omega
  refine ⟨m - 1, by omega, ?_, ?_, ?_⟩
  · intro u hu
    constructor
    · have h := hmono (u + 1) (by omega)
      have e1 : r + dr + (u : Int) * dr = r + ((u + 1 : Nat) : Int) * dr := by
        push_cast
        ring
      have e2 : c + dc + (u : Int) * dc = c + ((u + 1 : Nat) : Int) * dc := by
        push_cast
        ring
      rw [e1, e2]
      exact h
    · have h := hvac (u + 1) (by omega) (by omega)
      have e : 8 * (r + dr + (u : Int) * dr) + (c + dc + (u : Int) * dc)
          = 8 * (r + ((u + 1 : Nat) : Int) * dr) + (c + ((u + 1 : Nat) : Int) * dc) := by
        push_cast
        ring
      rw [e]
      exact h
  · have h := hmono m (by omega)
    have e1 : r + dr + ((m - 1 : Nat) : Int) * dr = r + (m : Int) * dr := by
      rw [em]
      ring
    have e2 : c + dc + ((m - 1 : Nat) : Int) * dc = c + (m : Int) * dc := by
      rw [em]
      ring
    rw [e1, e2]
    exact h
  · rw [em]
    ring

/-- Beyond a blocker at distance `k`, the same direction's walk marks
nothing: the ray point at distance `m > k` is not set. -/
theorem walk_ray_blocked (occ : Nat) (dr dc r c : Int) (k m : Nat)
    (hdr : dr = -1 ∨ dr = 0 ∨ dr = 1) (hdc : dc = -1 ∨ dc = 0 ∨ dc = 1)
    (hnz : ¬(dr = 0 ∧ dc = 0))
    (hk : 1 ≤ k) (hkm : k < m)
    (hmb : 0 ≤ r + (m : Int) * dr ∧ r + (m : Int) * dr < 8 ∧
           0 ≤ c + (m : Int) * dc ∧ c + (m : Int) * dc < 8)
    (hocc_k : test_bit occ (8 * (r + (k : Int) * dr) + (c + (k : Int) * dc)) = true) :
    test_bit (walk occ dr dc 8 (r + dr) (c + dc))
      (8 * (r + (m : Int) * dr) + (c + (m : Int) * dc)) = false := by
  rw [← Bool.not_eq_true, test_bit_walk]
  rintro ⟨t, ht8, hall, hvalid, hq⟩
  have em : m = t + 1 := by
    rcases hdr with h | h | h <;> rcases hdc with h' | h' | h' <;> subst h <;> subst h' <;>
      omega
  have hu := hall (k - 1) (by omega)
  have e : 8 * (r + dr + ((k - 1 : Nat) : Int) * dr) + (c + dc + ((k - 1 : Nat) : Int) * dc)
      = 8 * (r + (k : Int) * dr) + (c + (k : Int) * dc) := by
    have ek : ((k - 1 : Nat) : Int) = (k : Int) - 1 := by omega
    rw [ek]
    ring
  rw [e] at hu
  rw [hu.2] at hocc_k
  exact Bool.false_ne_true hocc_k

/-- A walk in a different unit direction never marks a ray point of the
direction under consideration. -/
theorem walk_ray_other_dir (occ : Nat) (dr dc dr' dc' r c : Int) (m : Nat)
    (hdr : dr = -1 ∨ dr = 0 ∨ dr = 1) (hdc : dc = -1 ∨ dc = 0 ∨ dc = 1)
    (hnz : ¬(dr = 0 ∧ dc = 0))
    (hdr' : dr' = -1 ∨ dr' = 0 ∨ dr' = 1) (hdc' : dc' = -1 ∨ dc' = 0 ∨ dc' = 1)
    (hnz' : ¬(dr' = 0 ∧ dc' = 0))
    (hne : ¬(dr' = dr ∧ dc' = dc))
    (hm : 1 ≤ m)
    (hmb : 0 ≤ r + (m : Int) * dr ∧ r + (m : Int) * dr < 8 ∧
           0 ≤ c + (m : Int) * dc ∧ c + (m : Int) * dc < 8) :
    test_bit (walk occ dr' dc' 8 (r + dr') (c + dc'))
      (8 * (r + (m : Int) * dr) + (c + (m : Int) * dc)) = false := by
  rw [← Bool.not_eq_true, test_bit_walk]
  rintro ⟨t, ht8, hall, hvalid, hq⟩
  rcases hdr with h | h | h <;> rcases hdc with h' | h' | h' <;>
    rcases hdr' with h'' | h'' | h'' <;> rcases hdc' with h''' | h''' | h''' <;>
    subst h <;> subst h' <;> subst h'' <;> subst h''' <;>
    omega

/-- Exactness of a sliding generator on a single-square source: with the
nearest occupant along `(dr, dc)` at distance `k`, the ray point at on-board
distance `m ≥ 1` is set iff `m ≤ k`. -/
theorem slide_exact (occ : Nat) (dirs : List (Int × Int)) (s : Nat) (dr dc : Int)
    (k m : Nat)
    (hdirs : ∀ d ∈ dirs, (d.1 = -1 ∨ d.1 = 0 ∨ d.1 = 1) ∧
      (d.2 = -1 ∨ d.2 = 0 ∨ d.2 = 1) ∧ ¬(d.1 = 0 ∧ d.2 = 0))
    (hd : (dr, dc) ∈ dirs)
    (hs : s < 64) (hk : 1 ≤ k) (hm : 1 ≤ m)
    (hkb : 0 ≤ (get_row s : Int) + (k : Int) * dr ∧
           (get_row s : Int) + (k : Int) * dr < 8 ∧
           0 ≤ (get_col s : Int) + (k : Int) * dc ∧
           (get_col s : Int) + (k : Int) * dc < 8)
    (hocc_k : test_bit occ
      (8 * ((get_row s : Int) + (k : Int) * dr) +
        ((get_col s : Int) + (k : Int) * dc)) = true)
    (hvac : ∀ u : Nat, 1 ≤ u → u < k →
      test_bit occ (8 * ((get_row s : Int) + (u : Int) * dr) +
        ((get_col s : Int) + (u : Int) * dc)) = false)
    (hmb : 0 ≤ (get_row s : Int) + (m : Int) * dr ∧
           (get_row s : Int) + (m : Int) * dr < 8 ∧
           0 ≤ (get_col s : Int) + (m : Int) * dc ∧
           (get_col s : Int) + (m : Int) * dc < 8) :
    test_bit (scanUnion (2 ^ s) (slide_square occ dirs))
      (8 * ((get_row s : Int) + (m : Int) * dr) +
        ((get_col s : Int) + (m : Int) * dc))
      = decide (m ≤ k) := by
  have hdp := hdirs (dr, dc) hd
  have hr8 : get_row s < 8 := by
    simp only [get_row]
    omega
  have hc8 : get_col s < 8 := by
    simp only [get_col]
    omega
  have hr : 0 ≤ (get_row s : Int) ∧ (get_row s : Int) < 8 := by omega
  have hc : 0 ≤ (get_col s : Int) ∧ (get_col s : Int) < 8 := by omega
  rw [scanUnion_two_pow _ s hs]
  by_cases hmk : m ≤ k
  · rw [decide_eq_true hmk]
    rw [test_bit_slide_square]
    refine ⟨(dr, dc), hd, ?_⟩
    exact walk_ray_hit occ dr dc _ _ k m hdp.1 hdp.2.1 hdp.2.2 hr hc hm hmk hkb
      (fun u h1 h2 => hvac u h1 (by omega))
  · have hkm : k < m := by omega
    rw [decide_eq_false hmk]
    rw [← Bool.not_eq_true, test_bit_slide_square]
    rintro ⟨⟨dr', dc'⟩, hd', hw⟩
    have hdp' := hdirs (dr', dc') hd'
    have hw' : test_bit
        (walk occ dr' dc' 8 ((get_row s : Int) + dr') ((get_col s : Int) + dc'))
        (8 * ((get_row s : Int) + (m : Int) * dr) +
          ((get_col s : Int) + (m : Int) * dc)) = true := hw
    by_cases hde : dr' = dr ∧ dc' = dc
    · obtain ⟨h1, h2⟩ := hde
      subst h1
      subst h2
      rw [walk_ray_blocked occ dr' dc' _ _ k m hdp.1 hdp.2.1 hdp.2.2 hk hkm hmb
        hocc_k] at hw'
      exact Bool.false_ne_true hw'
    · rw [walk_ray_other_dir occ dr dc dr' dc' _ _ m hdp.1 hdp.2.1 hdp.2.2
        hdp'.1 hdp'.2.1 hdp'.2.2 hde hm hmb] at hw'
      exact Bool.false_ne_true hw'

/-- C2: for a single-square source and a direction of the piece, if the
nearest occupant of either color along that direction sits at on-board
distance `k` (nothing strictly closer is occupied), then an on-board ray
point at distance `m ≥ 1` is set in the bishop/rook result exactly when
`m ≤ k` — the blocker square is included and nothing beyond it is set.  With
no occupant anywhere along the ray, every on-board ray point is set, so the
walk stops only at the board edge. -/
theorem claim_C2_slider_blocker_truncation (g : game) (s : Nat) (dr dc : Int)
    (k m : Nat) (hs : s < 64) (hk : 1 ≤ k) (hm : 1 ≤ m)
    (hmb : 0 ≤ (get_row s : Int) + (m : Int) * dr ∧
           (get_row s : Int) + (m : Int) * dr < 8 ∧
           0 ≤ (get_col s : Int) + (m : Int) * dc ∧
           (get_col s : Int) + (m : Int) * dc < 8) :
    ((0 ≤ (get_row s : Int) + (k : Int) * dr ∧
        (get_row s : Int) + (k : Int) * dr < 8 ∧
        0 ≤ (get_col s : Int) + (k : Int) * dc ∧
        (get_col s : Int) + (k : Int) * dc < 8) →
      test_bit (occupied g)
        (8 * ((get_row s : Int) + (k : Int) * dr) +
          ((get_col s : Int) + (k : Int) * dc)) = true →
      (∀ u : Nat, 1 ≤ u → u < k →
        test_bit (occupied g) (8 * ((get_row s : Int) + (u : Int) * dr) +
          ((get_col s : Int) + (u : Int) * dc)) = false) →
      (((dr, dc) ∈ bishop_dirs →
        test_bit (g.get_bishop_moves (2 ^ s))
          (8 * ((get_row s : Int) + (m : Int) * dr) +
            ((get_col s : Int) + (m : Int) * dc)) = decide (m ≤ k)) ∧
       ((dr, dc) ∈ rook_dirs →
        test_bit (g.get_rook_moves (2 ^ s))
          (8 * ((get_row s : Int) + (m : Int) * dr) +
            ((get_col s : Int) + (m : Int) * dc)) = decide (m ≤ k)))) ∧
    ((∀ u : Nat, 1 ≤ u →
        (0 ≤ (get_row s : Int) + (u : Int) * dr ∧
         (get_row s : Int) + (u : Int) * dr < 8 ∧
         0 ≤ (get_col s : Int) + (u : Int) * dc ∧
         (get_col s : Int) + (u : Int) * dc < 8) →
        test_bit (occupied g) (8 * ((get_row s : Int) + (u : Int) * dr) +
          ((get_col s : Int) + (u : Int) * dc)) = false) →
      (((dr, dc) ∈ bishop_dirs →
        test_bit (g.get_bishop_moves (2 ^ s))
          (8 * ((get_row s : Int) + (m : Int) * dr) +
            ((get_col s : Int) + (m : Int) * dc)) = true) ∧
       ((dr, dc) ∈ rook_dirs →
        test_bit (g.get_rook_moves (2 ^ s))
          (8 * ((get_row s : Int) + (m : Int) * dr) +
            ((get_col s : Int) + (m : Int) * dc)) = true))) := by
  have hbishop : ∀ d ∈ bishop_dirs, (d.1 = -1 ∨ d.1 = 0 ∨ d.1 = 1) ∧
      (d.2 = -1 ∨ d.2 = 0 ∨ d.2 = 1) ∧ ¬(d.1 = 0 ∧ d.2 = 0) := by decide
  have hrook : ∀ d ∈ rook_dirs, (d.1 = -1 ∨ d.1 = 0 ∨ d.1 = 1) ∧
      (d.2 = -1 ∨ d.2 = 0 ∨ d.2 = 1) ∧ ¬(d.1 = 0 ∧ d.2 = 0) := by decide
  have hr8 : get_row s < 8 := by
    simp only [get_row]
    omega
  have hc8 : get_col s < 8 := by
    simp only [get_col]
    omega
  have hr : 0 ≤ (get_row s : Int) ∧ (get_row s : Int) < 8 := by omega
  have hc : 0 ≤ (get_col s : Int) ∧ (get_col s : Int) < 8 := by omega
  constructor
  · intro hkb hocc_k hvac
    constructor
    · intro hd
      exact slide_exact (occupied g) bishop_dirs s dr dc k m hbishop hd hs hk hm
        hkb hocc_k hvac hmb
    · intro hd
      exact slide_exact (occupied g) rook_dirs s dr dc k m hrook hd hs hk hm
        hkb hocc_k hvac hmb
  · intro hvacall
    constructor
    · intro hd
      have hdp := hbishop (dr, dc) hd
      have hvacm : ∀ u : Nat, 1 ≤ u → u < m →
          test_bit (occupied g) (8 * ((get_row s : Int) + (u : Int) * dr) +
            ((get_col s : Int) + (u : Int) * dc)) = false := by
        intro u h1 h2
        exact hvacall u h1 (ray_on_board_of_le dr dc _ _ m hdp.1 hdp.2.1 hr hc hmb u
          (by omega))
      simp only [game.get_bishop_moves]
      rw [scanUnion_two_pow _ s hs]
      rw [test_bit_slide_square]
      refine ⟨(dr, dc), hd, ?_⟩
      exact walk_ray_hit (occupied g) dr dc _ _ m m hdp.1 hdp.2.1 hdp.2.2 hr hc hm
        (le_refl m) hmb hvacm
    · intro hd
      have hdp := hrook (dr, dc) hd
      have hvacm : ∀ u : Nat, 1 ≤ u → u < m →
          test_bit (occupied g) (8 * ((get_row s : Int) + (u : Int) * dr) +
            ((get_col s : Int) + (u : Int) * dc)) = false := by
        intro u h1 h2
        exact hvacall u h1 (ray_on_board_of_le dr dc _ _ m hdp.1 hdp.2.1 hr hc hmb u
          (by omega))
      simp only [game.get_rook_moves]
      rw [scanUnion_two_pow _ s hs]
      rw [test_bit_slide_square]
      refine ⟨(dr, dc), hd, ?_⟩
      exact walk_ray_hit (occupied g) dr dc _ _ m m hdp.1 hdp.2.1 hdp.2.2 hr hc hm
        (le_refl m) hmb hvacm

/-- Witness for C2 at concrete inputs.  Bishop from square 0 along (1, 1)
with a blocker on square 18 (distance 2): distance 2 is set, distance 3 is
not.  Rook from square 0 along (0, 1) with a blocker on square 2: distance 3
is not set.  On an empty board the bishop reaches distance 3. -/
theorem claim_C2_slider_blocker_truncation_witness :
    (test_bit ((⟨⟨2 ^ 18, 0⟩, -1⟩ : game).get_bishop_moves (2 ^ 0))
        (8 * ((get_row 0 : Int) + ((2 : Nat) : Int) * 1) +
          ((get_col 0 : Int) + ((2 : Nat) : Int) * 1)) = decide ((2 : Nat) ≤ 2)) ∧
    (test_bit ((⟨⟨2 ^ 18, 0⟩, -1⟩ : game).get_bishop_moves (2 ^ 0))
        (8 * ((get_row 0 : Int) + ((3 : Nat) : Int) * 1) +
          ((get_col 0 : Int) + ((3 : Nat) : Int) * 1)) = decide ((3 : Nat) ≤ 2)) ∧
    (test_bit ((⟨⟨2 ^ 2, 0⟩, -1⟩ : game).get_rook_moves (2 ^ 0))
        (8 * ((get_row 0 : Int) + ((3 : Nat) : Int) * 0) +
          ((get_col 0 : Int) + ((3 : Nat) : Int) * 1)) = decide ((3 : Nat) ≤ 2)) ∧
    (test_bit (empty_game.get_bishop_moves (2 ^ 0))
        (8 * ((get_row 0 : Int) + ((3 : Nat) : Int) * 1) +
          ((get_col 0 : Int) + ((3 : Nat) : Int) * 1)) = true) :=
  ⟨((claim_C2_slider_blocker_truncation (⟨⟨2 ^ 18, 0⟩, -1⟩ : game) 0 1 1 2 2
      (by decide) (by decide) (by decide) (by decide)).1 (by decide) (by decide)
      (by
        intro u h1 h2
        have hu : u = 1 := by omega
        subst hu
        decide)).1 (by decide),
   ((claim_C2_slider_blocker_truncation (⟨⟨2 ^ 18, 0⟩, -1⟩ : game) 0 1 1 2 3
      (by decide) (by decide) (by decide) (by decide)).1 (by decide) (by decide)
      (by
        intro u h1 h2
        have hu : u = 1 := by omega
        subst hu
        decide)).1 (by decide),
   ((claim_C2_slider_blocker_truncation (⟨⟨2 ^ 2, 0⟩, -1⟩ : game) 0 0 1 2 3
      (by decide) (by decide) (by decide) (by decide)).1 (by decide) (by decide)
      (by
        intro u h1 h2
        have hu : u = 1 := by omega
        subst hu
        decide)).2 (by decide),
   ((claim_C2_slider_blocker_truncation empty_game 0 1 1 1 3
      (by decide) (by decide) (by decide) (by decide)).2
      (fun u h1 h2 => test_bit_zero_mask _)).1 (by decide)⟩

end abra
